import Mathlib

/-!
Verification development for the MCQs-Converter repository.

The parsing core of `src/app.py` is embedded shallowly: text lines are
`List Char`, Python `str.strip()` becomes `trimL`, the two regular
expressions of the source are encoded character by character, and the
stateful scanning loops of `preprocess_mcq_lines`, `convert_text_to_word`
and `split_text_by_pattern` become structurally recursive functions whose
accumulators mirror the Python local variables.  The Flask shell is
abstracted only where it is external to the repository (the docx template
is represented by its table count, the per-chunk document conversion of
the `index` route by an arbitrary fallible function).
-/

/-- Characters of a string literal, used to write concrete test lines. -/
def sl (s : String) : List Char := s.data

/-- Whitespace characters stripped by Python `str.strip()` (ASCII subset;
the inputs considered here contain no non-ASCII whitespace). -/
def isPySpace (c : Char) : Bool :=
  c = ' ' || c = '\t' || c = '\n' || c = '\r' || c = '\x0b' || c = '\x0c'

/-- Python `s.strip()` on a list of characters: drop whitespace from both ends. -/
def trimL (l : List Char) : List Char :=
  (List.dropWhile isPySpace (List.dropWhile isPySpace l).reverse).reverse

/-- Python `"\n".join(blocks)`. -/
def joinNL : List (List Char) → List Char
  | [] => []
  | [x] => x
  | x :: y :: rest => x ++ '\n' :: joinNL (y :: rest)

/-- ASCII alphanumeric, the character class `[A-Za-z0-9]` of the option regex. -/
def isAsciiAlnum (c : Char) : Bool :=
  ('A' ≤ c && c ≤ 'Z') || ('a' ≤ c && c ≤ 'z') || ('0' ≤ c && c ≤ '9')

/-- Character class of an opening bracket, `[\(\[]` in the option regex. -/
def isOpenBr (c : Char) : Bool := c = '(' || c = '['

/-- Character class of a closing bracket, `[\)\]]` in the option regex. -/
def isCloseBr (c : Char) : Bool := c = ')' || c = ']'

/-- Character class `[A-Da-d]` of the second option-regex alternative. -/
def isLetterAD (c : Char) : Bool :=
  c = 'A' || c = 'B' || c = 'C' || c = 'D' || c = 'a' || c = 'b' || c = 'c' || c = 'd'

/-- Truth of Python `re.match` for the option-line pattern of `src/app.py`
(lines 51, 90 and 105).  The two branches with a leading alphanumeric or a
leading bracket encode the backtracking of the optional `[\(\[]?`; since the
trailing `.*` always matches, only the first two or three characters decide
the match. -/
def optMatch : List Char → Bool
  | c0 :: c1 :: rest =>
      (isAsciiAlnum c0 && isCloseBr c1)
      || (isOpenBr c0 &&
            (match rest with
             | c2 :: _ => isAsciiAlnum c1 && isCloseBr c2
             | [] => false))
      || (isLetterAD c0 && c1 = '.')
  | _ => false

/-- Scanning state of `preprocess_mcq_lines` (src/app.py lines 37-67):
`acc` is `current_question`, `b` is `in_options`. -/
def preGo (acc : List (List Char)) (b : Bool) : List (List Char) → List (List Char)
  | [] => if acc.isEmpty then [] else [trimL (joinNL acc)]
  | l :: rest =>
      let s := trimL l
      if s.isEmpty then preGo acc b rest
      else if optMatch s then
        if acc.isEmpty || b then s :: preGo acc true rest
        else trimL (joinNL acc) :: s :: preGo [] true rest
      else preGo (acc ++ [s]) false rest

/-- Embedding of `preprocess_mcq_lines` from src/app.py lines 37-67. -/
def preprocess_mcq_lines (lines : List (List Char)) : List (List Char) :=
  preGo [] false lines

/-- One-or-more digits, greedy: `\d+`.  Returns the rest of the input after
the maximal digit run, or `none` when no digit starts the input. -/
def dropDigits1 : List Char → Option (List Char)
  | [] => none
  | c :: rest => if c.isDigit then some (List.dropWhile Char.isDigit rest) else none

/-- Optional literal dot, greedy: `\.?`. -/
def dropOptDot : List Char → List Char
  | [] => []
  | c :: rest => if c = '.' then rest else c :: rest

/-- First alternative `Q\.?\d+\.?` of the question-number pattern
(src/app.py line 81), with the backtracking of the leading `\.?`. -/
def branchQ : List Char → Option (List Char)
  | [] => none
  | c :: rest =>
      if c = 'Q' then
        match rest with
        | [] => none
        | c2 :: r2 =>
            if c2 = '.' then
              match dropDigits1 r2 with
              | some r3 => some (dropOptDot r3)
              | none => (dropDigits1 rest).map dropOptDot
            else (dropDigits1 rest).map dropOptDot
      else none

/-- Second alternative `\d+\.?` of the question-number pattern. -/
def branchNum (l : List Char) : Option (List Char) := (dropDigits1 l).map dropOptDot

/-- Third alternative `\d+\)` of the question-number pattern.  A maximal digit
run must be followed by a closing paren; backtracking into `\d+` cannot
produce further matches because a shorter run is followed by a digit. -/
def branchNumParen (l : List Char) : Option (List Char) :=
  match dropDigits1 l with
  | some r =>
      match r with
      | [] => none
      | c :: r2 => if c = ')' then some r2 else none
  | none => none

/-- Rest of the input after a match of `^(Q\.?\d+\.?|\d+\.?|\d+\))\s*`
(src/app.py line 81), `none` when the pattern does not match at the start.
Python alternation is leftmost-first, and the trailing `\s*` never fails,
so the first alternative that matches is committed. -/
def numMatchRest (l : List Char) : Option (List Char) :=
  match branchQ l with
  | some r => some (List.dropWhile isPySpace r)
  | none =>
    match branchNum l with
    | some r => some (List.dropWhile isPySpace r)
    | none =>
      match branchNumParen l with
      | some r => some (List.dropWhile isPySpace r)
      | none => none

/-- Embedding of `re.sub(question_number_pattern, '', line)` (src/app.py
line 92): since the pattern is anchored at `^` and cannot match the empty
string, the substitution removes at most one prefix. -/
def stripNum (l : List Char) : List Char := (numMatchRest l).getD l

/-- Python `line.split(')', 1)`, accumulator form. -/
def pySplitOnceGo (c : Char) (acc : List Char) : List Char → List (List Char)
  | [] => [acc]
  | a :: rest => if a = c then [acc, rest] else pySplitOnceGo c (acc ++ [a]) rest

/-- Python `line.split(c, 1)[-1]` (src/app.py line 107 with `c = ')'`). -/
def pySplit1Last (c : Char) (s : List Char) : List Char :=
  (pySplitOnceGo c [] s).getLastD []

/-- Option-collecting loop of `convert_text_to_word` (src/app.py lines
103-111): `acc` is `options`, `ci` is `correct_index`.  Each line is
stripped, the text after the first closing paren is appended, and any line
containing the marker overwrites `correct_index` with the current index. -/
def scanOptions : List (List Char) → List (List Char) → Option Nat → List (List Char) × Option Nat
  | [], acc, ci => (acc, ci)
  | l :: rest, acc, ci =>
      let ol := trimL l
      let opt := trimL (pySplit1Last ')' ol)
      let acc2 := acc ++ [opt]
      let ci2 := if ol.contains '@' then some (acc2.length - 1) else ci
      scanOptions rest acc2 ci2

/-- Loop condition for skipping lines that are empty after stripping. -/
def emptyTrim (l : List Char) : Bool := (trimL l).isEmpty

/-- Loop condition of the question-collecting loop (src/app.py line 90):
non-empty after stripping and no option-pattern match on the raw line. -/
def stemCond (l : List Char) : Bool := !(trimL l).isEmpty && !(optMatch l)

/-- Loop condition of the option-collecting loop (src/app.py line 105):
non-empty after stripping and an option-pattern match on the raw line. -/
def optCond (l : List Char) : Bool := !(trimL l).isEmpty && optMatch l

/-- Lines remaining after the first empty-skipping loop (src/app.py line 85). -/
def afterSkip1 (ls : List (List Char)) : List (List Char) := List.dropWhile emptyTrim ls

/-- Lines collected by the question-collecting loop (src/app.py lines 89-94). -/
def stemLines (ls : List (List Char)) : List (List Char) := List.takeWhile stemCond (afterSkip1 ls)

/-- Lines remaining after the question-collecting loop. -/
def afterStem (ls : List (List Char)) : List (List Char) := List.dropWhile stemCond (afterSkip1 ls)

/-- Lines remaining after the second empty-skipping loop (src/app.py line 99). -/
def afterSkip2 (ls : List (List Char)) : List (List Char) := List.dropWhile emptyTrim (afterStem ls)

/-- Lines consumed by the option-collecting loop. -/
def optLinesOf (ls : List (List Char)) : List (List Char) := List.takeWhile optCond (afterSkip2 ls)

/-- Lines left unconsumed by one iteration of the outer loop. -/
def restOf (ls : List (List Char)) : List (List Char) := List.dropWhile optCond (afterSkip2 ls)

/-- Question stem of one iteration (src/app.py lines 92-96): each collected
line is stripped, the question-number prefix removed, the results joined
with newlines and stripped once more. -/
def stemOf (ls : List (List Char)) : List Char :=
  trimL (joinNL ((stemLines ls).map (fun l => stripNum (trimL l))))

/-- Value of `line_index` after one iteration of the outer loop, given its
value `pos` at entry. -/
def nextPosOf (pos : Nat) (ls : List (List Char)) : Nat :=
  pos + (ls.length - (afterSkip1 ls).length) + (stemLines ls).length
      + ((afterStem ls).length - (afterSkip2 ls).length) + (optLinesOf ls).length

/-- One parsed question as written into a template table: the stem text,
the option texts in order, and the 0-based correct-option index when a
marker was found. -/
structure QuestionRecord where
  stem : List Char
  opts : List (List Char)
  correctIdx : Option Nat
deriving DecidableEq

/-- Outer `while table_index < len(doc.tables) and line_index < len(lines)`
loop of `convert_text_to_word` (src/app.py lines 83-144).  The fuel is the
number of remaining template tables, which the source decrements on every
iteration; `pos` is `line_index`.  The second component collects
`incorrect_options_lines`, each entry being `line_index - len(options)` at
the moment the marker check fails (line 115). -/
def convertLoop : Nat → Nat → List (List Char) → List QuestionRecord × List Nat
  | 0, _, _ => ([], [])
  | _ + 1, _, [] => ([], [])
  | fuel + 1, pos, l :: rest =>
      let ls := l :: rest
      let scanned := scanOptions (optLinesOf ls) [] none
      let np := nextPosOf pos ls
      let prev := convertLoop fuel np (restOf ls)
      (⟨stemOf ls, scanned.1, scanned.2⟩ :: prev.1,
       match scanned.2 with
       | none => (np - scanned.1.length) :: prev.2
       | some _ => prev.2)

/-- Embedding of `convert_text_to_word` (src/app.py lines 69-146) with the
docx template abstracted to its table count: the input lines are passed
through `preprocess_mcq_lines` and the outer loop fills one record per
table. -/
def convert_text_to_word (numTables : Nat) (lines : List (List Char)) :
    List QuestionRecord × List Nat :=
  convertLoop numTables 0 (preprocess_mcq_lines lines)

/-- Python `stripped_line.startswith('---')`. -/
def startsDashes : List Char → Bool
  | '-' :: '-' :: '-' :: _ => true
  | _ => false

/-- Delimiter test of `split_text_by_pattern` (src/app.py line 20): the
stripped line starts and ends with three dashes.  Note that this accepts a
bare `---`, where Python `startswith` and `endswith` may overlap. -/
def pyDelim (s : List Char) : Bool := startsDashes s && startsDashes s.reverse

/-- Python `stripped_line.strip('-')`: all leading and trailing dashes removed. -/
def stripDashes (s : List Char) : List Char :=
  (List.dropWhile (fun c => c = '-') (List.dropWhile (fun c => c = '-') s).reverse).reverse

/-- Scanning state of `split_text_by_pattern` (src/app.py lines 8-35):
`fname` is `current_filename`, `chunk` is `current_chunk`; emitted chunks
are appended in order. -/
def splitGo (fname : Option (List Char)) (chunk : List (List Char)) :
    List (List Char) → List (Option (List Char) × List (List Char))
  | [] => if chunk.isEmpty then [] else [(fname, chunk)]
  | l :: rest =>
      let s := trimL l
      if pyDelim s then
        (if chunk.isEmpty then [] else [(fname, chunk)])
          ++ splitGo (some (stripDashes s)) [] rest
      else splitGo fname (chunk ++ [s]) rest

/-- Embedding of `split_text_by_pattern` from src/app.py lines 8-35. -/
def split_text_by_pattern (lines : List (List Char)) :
    List (Option (List Char) × List (List Char)) :=
  splitGo none [] lines

/-- A named chunk produced by the splitter. -/
abbrev NamedChunk := Option (List Char) × List (List Char)

/-- Outcome of the POST branch of the `index` route: either a result page
listing the generated file names, or an error page with a single message. -/
inductive RouteResult where
  | ok : List (List Char) → RouteResult
  | err : List Char → RouteResult
deriving DecidableEq

/-- Error message built by the `except` clause of the `index` route
(src/app.py line 180): `Error processing chunk {i + 1}: {str(e)}`. -/
def errMsg (i : Nat) (e : List Char) : List Char :=
  sl "Error processing chunk " ++ Nat.toDigits 10 (i + 1) ++ sl ": " ++ e

/-- Chunk-processing loop of the `index` route (src/app.py lines 169-183).
The per-chunk body (document conversion and save, which live outside the
parser) is abstracted as `process`; `acc` is `file_names`.  A failure
returns the error page at once. -/
def pcGo (process : Nat → NamedChunk → Except (List Char) (List Char)) :
    Nat → List NamedChunk → List (List Char) → RouteResult
  | _, [], acc => .ok acc
  | i, c :: rest, acc =>
      match process i c with
      | .ok fn => pcGo process (i + 1) rest (acc ++ [fn])
      | .error e => .err (errMsg i e)

/-- The chunk loop of the `index` route started on a chunk list. -/
def processChunks (process : Nat → NamedChunk → Except (List Char) (List Char))
    (chunks : List NamedChunk) : RouteResult :=
  pcGo process 0 chunks []

/-- Indices at which the chunk loop actually invokes the per-chunk body:
the loop body runs for each chunk until the first failure, after which the
route returns and no further chunk is touched. -/
def pcCalls (process : Nat → NamedChunk → Except (List Char) (List Char)) :
    Nat → List NamedChunk → List Nat
  | _, [] => []
  | i, c :: rest =>
      i :: (match process i c with
            | .ok _ => pcCalls process (i + 1) rest
            | .error _ => [])

/-- Segment of the classifier-and-grouper contract of spec section 4.1: a
maximal run of prose lines, or a single option line. -/
inductive Seg where
  | proseRun : List (List Char) → Seg
  | optLine : List Char → Seg
deriving DecidableEq

/-- Modelled from the spec (section 4.1): classify each trimmed non-empty
line with the option grammar and merge consecutive prose lines into one
maximal run. -/
def segments : List (List Char) → List Seg
  | [] => []
  | l :: rest =>
      if optMatch l then .optLine l :: segments rest
      else
        match segments rest with
        | .proseRun ls :: tail => .proseRun (l :: ls) :: tail
        | tail => .proseRun [l] :: tail

/-- Modelled from the spec (section 4.1): a prose run becomes one
newline-joined string, an option line passes through unchanged. -/
def renderSeg : Seg → List Char
  | .proseRun ls => joinNL ls
  | .optLine l => l

/-- Modelled from the spec (section 3): trim every line and discard lines
that are empty after trimming. -/
def cleanLines (lines : List (List Char)) : List (List Char) :=
  (lines.map trimL).filter (fun s => !s.isEmpty)

/-- Modelled from the spec (section 4.1): the full classifier-and-grouper
contract, to be compared with `preprocess_mcq_lines`. -/
def specGrouping (lines : List (List Char)) : List (List Char) :=
  (segments (cleanLines lines)).map renderSeg

/-- Prepend a pending prose accumulator to a segment sequence, merging it
into a leading prose run when one is present.  This relates the scanning
state of `preGo` to the declarative `segments`. -/
def consProse (acc : List (List Char)) (segs : List Seg) : List Seg :=
  if acc.isEmpty then segs
  else
    match segs with
    | .proseRun ls :: tail => .proseRun (acc ++ ls) :: tail
    | segs => .proseRun acc :: segs

/-- Index of the last element satisfying `p`, used to state what the
marker-detection loop actually computes. -/
def lastMarkedIdx (p : List Char → Bool) : List (List Char) → Option Nat
  | [] => none
  | a :: rest =>
      match lastMarkedIdx p rest with
      | some j => some (j + 1)
      | none => if p a then some 0 else none

/-- Split a character list at newlines. -/
def splitNLGo : List Char → List (List Char)
  | [] => [[]]
  | c :: rest =>
      if c = '\n' then [] :: splitNLGo rest
      else
        match splitNLGo rest with
        | g :: gs => (c :: g) :: gs
        | [] => [[c]]

/-- Modelled from the spec (section 4.2): the per-line reading of the
question-number strip, applied independently to each line of a block. -/
def perLineStrip (s : List Char) : List Char :=
  joinNL ((splitNLGo s).map stripNum)

/-- Modelled from the spec (section 4.3): option text as everything after
the first closing bracket, closing paren or period, or the whole trimmed
line when no such delimiter occurs. -/
def specOptionText (s : List Char) : List Char :=
  if s.any (fun c => c = ')' || c = ']' || c = '.') then
    (List.dropWhile (fun c => !(c = ')' || c = ']' || c = '.')) s).drop 1
  else trimL s

/-- Modelled from the spec (section 4.4): the delimiter regular expression
`^---.*---$` on a newline-free stripped line, equivalent to three leading
dashes, three trailing dashes and total length at least six. -/
def dashDelimRegex (s : List Char) : Bool :=
  startsDashes s && startsDashes s.reverse && decide (6 ≤ s.length)

/-- Everything after the first closing paren, in the dropWhile reading used
to state the corrected option-text claim. -/
def specAfterParenText (s : List Char) : List Char :=
  if ')' ∈ s then (List.dropWhile (fun c => !(c = ')')) s).drop 1 else s

/-! ### List helper lemmas -/

theorem lengthDropWhileLe {α : Type} (p : α → Bool) (l : List α) :
    (List.dropWhile p l).length ≤ l.length := by
  induction l with
  | nil => simp
  | cons a t ih =>
      by_cases h : p a = true
      · rw [List.dropWhile_cons_of_pos h]
        exact le_trans ih (Nat.le_succ _)
      · rw [List.dropWhile_cons_of_neg h]

theorem lengthTakeWhileLe {α : Type} (p : α → Bool) (l : List α) :
    (List.takeWhile p l).length ≤ l.length := by
  induction l with
  | nil => simp
  | cons a t ih =>
      by_cases h : p a = true
      · rw [List.takeWhile_cons_of_pos h]
        simpa using ih
      · rw [List.takeWhile_cons_of_neg h]
        simp

theorem dropWhileHeadFalse {α : Type} {p : α → Bool} {c : α} :
    ∀ {l : List α}, (List.dropWhile p l).head? = some c → p c = false := by
  intro l
  induction l with
  | nil => simp
  | cons a t ih =>
      by_cases h : p a = true
      · rw [List.dropWhile_cons_of_pos h]
        exact ih
      · rw [List.dropWhile_cons_of_neg h]
        intro hc
        simp only [List.head?_cons, Option.some.injEq] at hc
        rw [← hc]
        exact Bool.eq_false_iff.mpr h

theorem dropWhileGetLastEq {α : Type} {p : α → Bool} :
    ∀ {l : List α}, List.dropWhile p l ≠ [] →
      (List.dropWhile p l).getLast? = l.getLast? := by
  intro l
  induction l with
  | nil => simp
  | cons a t ih =>
      by_cases h : p a = true
      · rw [List.dropWhile_cons_of_pos h]
        intro hne
        have ht : t ≠ [] := by
          intro he
          subst he
          simp at hne
        rw [ih hne]
        match t, ht with
        | b :: t2, _ => exact (List.getLast?_cons_cons).symm
      · rw [List.dropWhile_cons_of_neg h]
        intro _
        rfl

theorem dropWhileDropWhile {α : Type} (p : α → Bool) (l : List α) :
    List.dropWhile p (List.dropWhile p l) = List.dropWhile p l := by
  induction l with
  | nil => simp
  | cons a t ih =>
      by_cases h : p a = true
      · rw [List.dropWhile_cons_of_pos h, ih]
      · rw [List.dropWhile_cons_of_neg h, List.dropWhile_cons_of_neg h]

/-! ### trimL lemmas -/

theorem trimLGetLastFalse {l : List Char} {c : Char} :
    (trimL l).getLast? = some c → isPySpace c = false := by
  intro h
  unfold trimL at h
  rw [List.getLast?_reverse] at h
  exact dropWhileHeadFalse h

theorem trimLHeadFalse {l : List Char} {c : Char} :
    (trimL l).head? = some c → isPySpace c = false := by
  intro h
  unfold trimL at h
  rw [List.head?_reverse] at h
  have hne : List.dropWhile isPySpace (List.dropWhile isPySpace l).reverse ≠ [] := by
    intro he
    rw [he] at h
    simp at h
  rw [dropWhileGetLastEq hne, List.getLast?_reverse] at h
  exact dropWhileHeadFalse h

theorem trimLEqSelf {l : List Char}
    (hh : ∀ c, l.head? = some c → isPySpace c = false)
    (hl : ∀ c, l.getLast? = some c → isPySpace c = false) :
    trimL l = l := by
  unfold trimL
  have h1 : List.dropWhile isPySpace l = l := by
    match l, hh with
    | [], _ => rfl
    | a :: t, hh =>
        have : isPySpace a = false := hh a rfl
        exact List.dropWhile_cons_of_neg (by simp [this])
  rw [h1]
  have h2 : List.dropWhile isPySpace l.reverse = l.reverse := by
    match hr : l.reverse, hl with
    | [], _ => rfl
    | b :: t, hl =>
        have hb : l.getLast? = some b := by
          rw [← List.head?_reverse, hr]
          rfl
        have : isPySpace b = false := hl b hb
        exact List.dropWhile_cons_of_neg (by simp [this])
  rw [h2, List.reverse_reverse]

theorem trimLIdem (l : List Char) : trimL (trimL l) = trimL l :=
  trimLEqSelf (fun _ h => trimLHeadFalse h) (fun _ h => trimLGetLastFalse h)

/-! ### joinNL lemmas -/

theorem joinNLNeNil : ∀ (acc : List (List Char)), acc ≠ [] →
    (∀ x ∈ acc, x ≠ []) → joinNL acc ≠ [] := by
  intro acc
  match acc with
  | [] => intro h; exact absurd rfl h
  | [x] =>
      intro _ hx
      exact hx x (by simp)
  | x :: y :: rest =>
      intro _ hx
      show x ++ '\n' :: joinNL (y :: rest) ≠ []
      have : x ≠ [] := hx x (by simp)
      simp

theorem joinNLHeadNonspace :
    ∀ (acc : List (List Char)), (∀ x ∈ acc, x ≠ [] ∧ trimL x = x) →
      ∀ c, (joinNL acc).head? = some c → isPySpace c = false := by
  intro acc
  match acc with
  | [] => intro _ c hc; simp [joinNL] at hc
  | [x] =>
      intro hx c hc
      have h2 := (hx x (by simp)).2
      rw [← h2] at hc
      exact trimLHeadFalse hc
  | x :: y :: rest =>
      intro hx c hc
      have hxne := (hx x (by simp)).1
      have h2 := (hx x (by simp)).2
      have : (joinNL (x :: y :: rest)).head? = x.head? := by
        show (x ++ '\n' :: joinNL (y :: rest)).head? = x.head?
        exact List.head?_append_of_ne_nil x hxne
      rw [this, ← h2] at hc
      exact trimLHeadFalse hc

theorem joinNLGetLastNonspace :
    ∀ (acc : List (List Char)), (∀ x ∈ acc, x ≠ [] ∧ trimL x = x) →
      ∀ c, (joinNL acc).getLast? = some c → isPySpace c = false := by
  intro acc
  induction acc with
  | nil => intro _ c hc; simp [joinNL] at hc
  | cons x rest ih =>
      intro hx c hc
      match rest, ih with
      | [], _ =>
          have h2 := (hx x (by simp)).2
          rw [show joinNL [x] = x from rfl, ← h2] at hc
          exact trimLGetLastFalse hc
      | y :: rest2, ih =>
          have htail : ∀ z ∈ y :: rest2, z ≠ [] ∧ trimL z = z := by
            intro z hz
            exact hx z (by simp [hz])
          have hjne : joinNL (y :: rest2) ≠ [] :=
            joinNLNeNil _ (by simp) (fun z hz => (htail z hz).1)
          have step : (joinNL (x :: y :: rest2)).getLast? = (joinNL (y :: rest2)).getLast? := by
            show (x ++ '\n' :: joinNL (y :: rest2)).getLast? = (joinNL (y :: rest2)).getLast?
            rw [List.getLast?_append_of_ne_nil x (by simp)]
            have : '\n' :: joinNL (y :: rest2) = ['\n'] ++ joinNL (y :: rest2) := rfl
            rw [this, List.getLast?_append_of_ne_nil _ hjne]
          rw [step] at hc
          exact ih htail c hc

theorem trimLJoinNLFlush (acc : List (List Char))
    (h : ∀ x ∈ acc, x ≠ [] ∧ trimL x = x) :
    trimL (joinNL acc) = joinNL acc :=
  trimLEqSelf (joinNLHeadNonspace acc h) (joinNLGetLastNonspace acc h)

/-! ### Equivalence of the grouping scan with the declarative segmentation -/

theorem segmentsConsOpt {s : List Char} (h : optMatch s = true) (T : List (List Char)) :
    segments (s :: T) = .optLine s :: segments T := by
  simp [segments, h]

theorem segmentsConsProse {s : List Char} (h : optMatch s = false) (T : List (List Char)) :
    segments (s :: T) =
      match segments T with
      | .proseRun ls :: tail => .proseRun (s :: ls) :: tail
      | tail => .proseRun [s] :: tail := by
  simp [segments, h]

theorem consProseNil (segs : List Seg) : consProse [] segs = segs := by
  simp [consProse]

theorem consProsePush (s : List Char) (acc : List (List Char)) (segs : List Seg) :
    consProse (acc ++ [s]) segs =
      consProse acc
        (match segs with
         | .proseRun ls :: tail => .proseRun (s :: ls) :: tail
         | tail => .proseRun [s] :: tail) := by
  cases segs with
  | nil =>
      cases acc with
      | nil => simp [consProse]
      | cons a t => simp [consProse]
  | cons seg tail =>
      cases seg with
      | proseRun ls =>
          cases acc with
          | nil => simp [consProse]
          | cons a t => simp [consProse]
      | optLine l =>
          cases acc with
          | nil => simp [consProse]
          | cons a t => simp [consProse]

theorem cleanConsEq (l : List Char) (rest : List (List Char)) :
    cleanLines (l :: rest) =
      if (trimL l).isEmpty then cleanLines rest else trimL l :: cleanLines rest := by
  by_cases h : (trimL l).isEmpty <;> simp [cleanLines, List.filter_cons, h]

theorem preGoTrueFalse : ∀ lines, preGo [] true lines = preGo [] false lines := by
  intro lines
  induction lines with
  | nil => rfl
  | cons l rest ih =>
      by_cases h1 : (trimL l).isEmpty
      · simp only [preGo, h1, if_true]
        exact ih
      · by_cases h2 : optMatch (trimL l)
        · simp [preGo, h1, h2]
        · simp [preGo, h1, h2]

theorem preGoSpec : ∀ (lines acc : List (List Char)),
    (∀ x ∈ acc, x ≠ [] ∧ trimL x = x) →
    preGo acc false lines = (consProse acc (segments (cleanLines lines))).map renderSeg := by
  intro lines
  induction lines with
  | nil =>
      intro acc hacc
      cases acc with
      | nil => simp [preGo, cleanLines, segments, consProse]
      | cons a t =>
          have hflush := trimLJoinNLFlush (a :: t) hacc
          simp only [preGo, List.isEmpty_cons, if_false, Bool.false_eq_true]
          rw [hflush]
          simp [cleanLines, segments, consProse, renderSeg]
  | cons l rest ih =>
      intro acc hacc
      rw [cleanConsEq]
      by_cases h1 : (trimL l).isEmpty
      · simp only [preGo, h1, if_true]
        exact ih acc hacc
      · by_cases h2 : optMatch (trimL l)
        · rw [if_neg h1, segmentsConsOpt h2]
          by_cases h3 : acc.isEmpty
          · have hacc0 : acc = [] := by
              cases acc with
              | nil => rfl
              | cons a t => simp at h3
            subst hacc0
            simp only [preGo, h1, if_false, h2, if_true, List.isEmpty_nil, Bool.true_or]
            rw [preGoTrueFalse, ih [] (by simp), consProseNil, consProseNil]
            simp [renderSeg]
          · have hacc1 : acc ≠ [] := by
              cases acc with
              | nil => simp at h3
              | cons a t => simp
            have hflush := trimLJoinNLFlush acc hacc
            simp only [preGo, h1, if_false, h2, if_true, h3, Bool.false_or]
            rw [if_neg (by simp [h3]), hflush, preGoTrueFalse, ih [] (by simp), consProseNil]
            have hcp : consProse acc (.optLine (trimL l) :: segments (cleanLines rest)) =
                .proseRun acc :: .optLine (trimL l) :: segments (cleanLines rest) := by
              cases acc with
              | nil => simp at h3
              | cons a t => simp [consProse]
            rw [hcp]
            simp [renderSeg]
        · have h2f : optMatch (trimL l) = false := by simpa using h2
          rw [if_neg h1, segmentsConsProse h2f]
          have hstep : preGo acc false (l :: rest) = preGo (acc ++ [trimL l]) false rest := by
            simp [preGo, h1, h2]
          rw [hstep]
          have hext : ∀ x ∈ acc ++ [trimL l], x ≠ [] ∧ trimL x = x := by
            intro x hx
            rcases List.mem_append.mp hx with hx1 | hx2
            · exact hacc x hx1
            · have hxe : x = trimL l := by simpa using hx2
              subst hxe
              constructor
              · intro hnil
                rw [hnil] at h1
                simp at h1
              · exact trimLIdem l
          rw [ih (acc ++ [trimL l]) hext, consProsePush]

theorem preprocessEqSpec : ∀ lines, preprocess_mcq_lines lines = specGrouping lines := by
  intro lines
  have h := preGoSpec lines [] (by simp)
  rw [preprocess_mcq_lines, h, consProseNil, specGrouping]

/-! ### Characterization of the option scan and of one extraction block -/

theorem scanOptionsSpec : ∀ (ls acc : List (List Char)) (ci : Option Nat),
    scanOptions ls acc ci =
      (acc ++ ls.map (fun l => trimL (pySplit1Last ')' (trimL l))),
       match lastMarkedIdx (fun ol => ol.contains '@') (ls.map trimL) with
       | some j => some (acc.length + j)
       | none => ci) := by
  intro ls
  induction ls with
  | nil => intro acc ci; simp [scanOptions, lastMarkedIdx]
  | cons l rest ih =>
      intro acc ci
      simp only [scanOptions]
      rw [ih]
      simp only [List.map_cons, Prod.mk.injEq]
      constructor
      · simp
      · simp only [lastMarkedIdx]
        cases hlm : lastMarkedIdx (fun ol => ol.contains '@') (rest.map trimL) with
        | some j =>
            simp only [Option.some.injEq]
            simp [List.length_append]
            omega
        | none =>
            by_cases hc : '@' ∈ trimL l
            · simp [hc, List.length_append]
            · simp [hc]

theorem convertLoopNil : ∀ (f pos : Nat), convertLoop f pos [] = ([], []) := by
  intro f pos
  cases f with
  | zero => rfl
  | succ k => rfl

theorem lastMarkedIdxNone (p : List Char → Bool) :
    ∀ ls, (∀ x ∈ ls, p x = false) → lastMarkedIdx p ls = none := by
  intro ls
  induction ls with
  | nil => intro _; rfl
  | cons a rest ih =>
      intro h
      simp only [lastMarkedIdx]
      rw [ih (fun x hx => h x (by simp [hx]))]
      simp [h a (by simp)]

theorem convertLoopBlock (m pos : Nat) (stemSeg : List Char) (optLines : List (List Char))
    (h1 : (trimL stemSeg).isEmpty = false)
    (h2 : optMatch stemSeg = false)
    (h3 : ∀ l ∈ optLines, (trimL l).isEmpty = false ∧ optMatch l = true) :
    convertLoop (m + 1) pos (stemSeg :: optLines) =
      ([⟨trimL (stripNum (trimL stemSeg)),
         optLines.map (fun l => trimL (pySplit1Last ')' (trimL l))),
         lastMarkedIdx (fun ol => ol.contains '@') (optLines.map trimL)⟩],
       match lastMarkedIdx (fun ol => ol.contains '@') (optLines.map trimL) with
       | none => [pos + 1]
       | some _ => []) := by
  have hoc : ∀ o ∈ optLines, stemCond o = false ∧ emptyTrim o = false ∧ optCond o = true := by
    intro o ho
    obtain ⟨he, hm⟩ := h3 o ho
    exact ⟨by simp [stemCond, he, hm], by simp [emptyTrim, he], by simp [optCond, he, hm]⟩
  have hA1 : afterSkip1 (stemSeg :: optLines) = stemSeg :: optLines := by
    unfold afterSkip1
    exact List.dropWhile_cons_of_neg (by simp [emptyTrim, h1])
  have hsc : stemCond stemSeg = true := by simp [stemCond, h1, h2]
  have hstem : stemLines (stemSeg :: optLines) = [stemSeg] := by
    unfold stemLines
    rw [hA1, List.takeWhile_cons_of_pos hsc]
    cases optLines with
    | nil => rfl
    | cons o t => rw [List.takeWhile_cons_of_neg (by simp [(hoc o (by simp)).1])]
  have hafter : afterStem (stemSeg :: optLines) = optLines := by
    unfold afterStem
    rw [hA1, List.dropWhile_cons_of_pos hsc]
    cases optLines with
    | nil => rfl
    | cons o t => exact List.dropWhile_cons_of_neg (by simp [(hoc o (by simp)).1])
  have hA2 : afterSkip2 (stemSeg :: optLines) = optLines := by
    unfold afterSkip2
    rw [hafter]
    cases optLines with
    | nil => rfl
    | cons o t => exact List.dropWhile_cons_of_neg (by simp [(hoc o (by simp)).2.1])
  have hopt : optLinesOf (stemSeg :: optLines) = optLines := by
    unfold optLinesOf
    rw [hA2]
    exact List.takeWhile_eq_self_iff.mpr (fun x hx => by simp [(hoc x hx).2.2])
  have hrest : restOf (stemSeg :: optLines) = [] := by
    unfold restOf
    rw [hA2]
    exact List.dropWhile_eq_nil_iff.mpr (fun x hx => by simp [(hoc x hx).2.2])
  have hscan : scanOptions (optLinesOf (stemSeg :: optLines)) [] none =
      (optLines.map (fun l => trimL (pySplit1Last ')' (trimL l))),
       lastMarkedIdx (fun ol => ol.contains '@') (optLines.map trimL)) := by
    rw [hopt, scanOptionsSpec]
    simp only [List.nil_append, List.length_nil, Nat.zero_add]
    cases hlm : lastMarkedIdx (fun ol => ol.contains '@') (optLines.map trimL) <;> simp
  have hnp : nextPosOf pos (stemSeg :: optLines) = pos + 1 + optLines.length := by
    unfold nextPosOf
    rw [hA1, hstem, hafter, hA2, hopt]
    simp
  have hstemOf : stemOf (stemSeg :: optLines) = trimL (stripNum (trimL stemSeg)) := by
    unfold stemOf
    rw [hstem]
    rfl
  simp only [convertLoop]
  rw [hscan, hrest, hstemOf, hnp, convertLoopNil]
  simp only [List.length_map]
  have hsub : pos + 1 + optLines.length - optLines.length = pos + 1 := by omega
  rw [hsub]

/-! ### Non-emptiness of grouped lines and progress of the extraction loop -/

theorem joinNLHeadNeNil (x : List Char) (rest : List (List Char)) (hx : x ≠ []) :
    joinNL (x :: rest) ≠ [] := by
  cases rest with
  | nil => exact hx
  | cons y r =>
      show x ++ '\n' :: joinNL (y :: r) ≠ []
      simp

theorem segmentsGood : ∀ (L : List (List Char)), (∀ x ∈ L, x ≠ []) →
    ∀ seg ∈ segments L, renderSeg seg ≠ [] := by
  intro L
  induction L with
  | nil => intro _ seg hseg; simp [segments] at hseg
  | cons l rest ih =>
      intro hL seg hseg
      have hl : l ≠ [] := hL l (by simp)
      have hrest : ∀ x ∈ rest, x ≠ [] := fun x hx => hL x (by simp [hx])
      by_cases h : optMatch l = true
      · rw [segmentsConsOpt h] at hseg
        rcases List.mem_cons.mp hseg with he | ht
        · subst he
          simpa [renderSeg] using hl
        · exact ih hrest seg ht
      · have hf : optMatch l = false := by simpa using h
        rw [segmentsConsProse hf] at hseg
        cases hs : segments rest with
        | nil =>
            rw [hs] at hseg
            simp at hseg
            subst hseg
            simpa [renderSeg] using joinNLHeadNeNil l [] hl
        | cons s0 tail =>
            rw [hs] at hseg
            cases s0 with
            | proseRun ls0 =>
                rcases List.mem_cons.mp hseg with he | ht
                · subst he
                  simpa [renderSeg] using joinNLHeadNeNil l ls0 hl
                · refine ih hrest seg ?ht2
                  rw [hs]
                  exact List.mem_cons_of_mem _ ht
            | optLine l0 =>
                rcases List.mem_cons.mp hseg with he | ht
                · subst he
                  simpa [renderSeg] using joinNLHeadNeNil l [] hl
                · refine ih hrest seg ?ht3
                  rw [hs]
                  exact ht

theorem preprocessElemsNeNil : ∀ lines s, s ∈ preprocess_mcq_lines lines → s ≠ [] := by
  intro lines s hs
  rw [preprocessEqSpec] at hs
  unfold specGrouping at hs
  rcases List.mem_map.mp hs with ⟨seg, hseg, hrender⟩
  have hclean : ∀ x ∈ cleanLines lines, x ≠ [] := by
    intro x hx
    unfold cleanLines at hx
    rcases List.mem_filter.mp hx with ⟨_, hxe⟩
    intro he
    subst he
    simp at hxe
  rw [← hrender]
  exact segmentsGood _ hclean seg hseg

theorem restOfProgress : ∀ (l : List Char) (rest : List (List Char)),
    (restOf (l :: rest)).length < (l :: rest).length := by
  intro l rest
  have chain : ∀ (t : List (List Char)), afterSkip1 (l :: rest) = t →
      (restOf (l :: rest)).length ≤ t.length := by
    intro t ht
    unfold restOf afterSkip2 afterStem
    rw [ht]
    calc (List.dropWhile optCond (List.dropWhile emptyTrim (List.dropWhile stemCond t))).length
        ≤ (List.dropWhile emptyTrim (List.dropWhile stemCond t)).length :=
          lengthDropWhileLe _ _
      _ ≤ (List.dropWhile stemCond t).length := lengthDropWhileLe _ _
      _ ≤ t.length := lengthDropWhileLe _ _
  by_cases h1 : emptyTrim l = true
  · have hA : afterSkip1 (l :: rest) = List.dropWhile emptyTrim rest := by
      unfold afterSkip1
      exact List.dropWhile_cons_of_pos h1
    have := chain _ hA
    have h2 := lengthDropWhileLe emptyTrim rest
    simp only [List.length_cons]
    omega
  · have hA : afterSkip1 (l :: rest) = l :: rest := by
      unfold afterSkip1
      exact List.dropWhile_cons_of_neg h1
    by_cases h2 : stemCond l = true
    · have hB : (restOf (l :: rest)).length ≤ (List.dropWhile stemCond rest).length := by
        unfold restOf afterSkip2 afterStem
        rw [hA, List.dropWhile_cons_of_pos h2]
        calc (List.dropWhile optCond (List.dropWhile emptyTrim (List.dropWhile stemCond rest))).length
            ≤ (List.dropWhile emptyTrim (List.dropWhile stemCond rest)).length :=
              lengthDropWhileLe _ _
          _ ≤ (List.dropWhile stemCond rest).length := lengthDropWhileLe _ _
      have h3 := lengthDropWhileLe stemCond rest
      simp only [List.length_cons]
      omega
    · have hem : (trimL l).isEmpty = false := by
        simpa [emptyTrim] using h1
      have hom : optMatch l = true := by
        rcases hb : optMatch l with hf | ht
        · exfalso
          apply h2
          simp [stemCond, hem, hb]
        · rfl
      have hoc : optCond l = true := by simp [optCond, hem, hom]
      have hB : restOf (l :: rest) = List.dropWhile optCond rest := by
        unfold restOf afterSkip2 afterStem
        rw [hA, List.dropWhile_cons_of_neg (by simp [h2]),
            List.dropWhile_cons_of_neg (by simp [h1]),
            List.dropWhile_cons_of_pos hoc]
      rw [hB]
      have h3 := lengthDropWhileLe optCond rest
      simp only [List.length_cons]
      omega

/-! ### Strict shortening of a question-number match -/

theorem dropDigits1Lt {l r : List Char} (h : dropDigits1 l = some r) :
    r.length < l.length := by
  cases l with
  | nil => simp [dropDigits1] at h
  | cons c t =>
      by_cases hd : c.isDigit
      · simp only [dropDigits1, hd, if_true, Option.some.injEq] at h
        subst h
        have := lengthDropWhileLe Char.isDigit t
        simp only [List.length_cons]
        omega
      · simp [dropDigits1, hd] at h

theorem dropOptDotLe (l : List Char) : (dropOptDot l).length ≤ l.length := by
  cases l with
  | nil => simp [dropOptDot]
  | cons c t =>
      by_cases hc : c = '.'
      · simp only [dropOptDot, hc, if_true]
        simp only [List.length_cons]
        omega
      · simp [dropOptDot, hc]

theorem branchNumLt {l r : List Char} (h : branchNum l = some r) : r.length < l.length := by
  unfold branchNum at h
  cases hd : dropDigits1 l with
  | none => rw [hd] at h; simp at h
  | some r0 =>
      rw [hd] at h
      simp only [Option.map_some', Option.some.injEq] at h
      subst h
      exact lt_of_le_of_lt (dropOptDotLe r0) (dropDigits1Lt hd)

theorem branchQLt {l r : List Char} (h : branchQ l = some r) : r.length < l.length := by
  cases l with
  | nil => simp [branchQ] at h
  | cons c t =>
      by_cases hc : c = 'Q'
      · subst hc
        cases t with
        | nil => simp [branchQ] at h
        | cons c2 r2 =>
            by_cases h2 : c2 = '.'
            · subst h2
              simp only [branchQ, if_true] at h
              cases hd : dropDigits1 r2 with
              | some r3 =>
                  rw [hd] at h
                  simp only [Option.some.injEq] at h
                  subst h
                  have hlt := dropDigits1Lt hd
                  have hle := dropOptDotLe r3
                  simp only [List.length_cons]
                  omega
              | none =>
                  rw [hd] at h
                  cases he : dropDigits1 ('.' :: r2) with
                  | none => rw [he] at h; simp at h
                  | some r4 =>
                      rw [he] at h
                      simp only [Option.map_some', Option.some.injEq] at h
                      subst h
                      have hlt := dropDigits1Lt he
                      have hle := dropOptDotLe r4
                      simp only [List.length_cons] at hlt ⊢
                      omega
            · simp only [branchQ, if_true, if_neg h2] at h
              cases he : dropDigits1 (c2 :: r2) with
              | none => rw [he] at h; simp at h
              | some r4 =>
                  rw [he] at h
                  simp only [Option.map_some', Option.some.injEq] at h
                  subst h
                  have hlt := dropDigits1Lt he
                  have hle := dropOptDotLe r4
                  simp only [List.length_cons] at hlt ⊢
                  omega
      · simp [branchQ, hc] at h

theorem branchNumParenLt {l r : List Char} (h : branchNumParen l = some r) :
    r.length < l.length := by
  unfold branchNumParen at h
  cases hd : dropDigits1 l with
  | none => rw [hd] at h; simp at h
  | some r0 =>
      rw [hd] at h
      cases r0 with
      | nil => simp at h
      | cons c r2 =>
          by_cases hc : c = ')'
          · simp only [hc, if_true, Option.some.injEq] at h
            subst h
            have := dropDigits1Lt hd
            simp only [List.length_cons] at this
            omega
          · simp [hc] at h

theorem numMatchRestLt {l r : List Char} (h : numMatchRest l = some r) :
    r.length < l.length := by
  unfold numMatchRest at h
  cases hq : branchQ l with
  | some rq =>
      rw [hq] at h
      simp only [Option.some.injEq] at h
      subst h
      exact lt_of_le_of_lt (lengthDropWhileLe _ _) (branchQLt hq)
  | none =>
      rw [hq] at h
      cases hn : branchNum l with
      | some rn =>
          rw [hn] at h
          simp only [Option.some.injEq] at h
          subst h
          exact lt_of_le_of_lt (lengthDropWhileLe _ _) (branchNumLt hn)
      | none =>
          rw [hn] at h
          cases hp : branchNumParen l with
          | some rp =>
              rw [hp] at h
              simp only [Option.some.injEq] at h
              subst h
              exact lt_of_le_of_lt (lengthDropWhileLe _ _) (branchNumParenLt hp)
          | none => rw [hp] at h; simp at h

/-! ### Characterization of the option-text split -/

theorem pySplitGoLast (c : Char) : ∀ (s acc : List Char),
    (pySplitOnceGo c acc s).getLastD [] =
      if c ∈ s then (List.dropWhile (fun x => !(x = c)) s).drop 1 else acc ++ s := by
  intro s
  induction s with
  | nil => intro acc; simp [pySplitOnceGo]
  | cons a t ih =>
      intro acc
      by_cases ha : a = c
      · subst ha
        have hdw : List.dropWhile (fun x => !(x = a)) (a :: t) = a :: t :=
          List.dropWhile_cons_of_neg (by simp)
        simp [pySplitOnceGo, hdw]
      · simp only [pySplitOnceGo, if_neg ha]
        rw [ih (acc ++ [a])]
        have hmem : (c ∈ a :: t) = (c ∈ t) := by
          simp [List.mem_cons]
          intro he
          exact absurd he.symm ha
        by_cases hm : c ∈ t
        · have hdw : List.dropWhile (fun x => !(x = c)) (a :: t) =
              List.dropWhile (fun x => !(x = c)) t :=
            List.dropWhile_cons_of_pos (by simp [ha])
          simp [hm, hmem, hdw]
        · simp [hm, hmem, List.append_assoc]

/-! ### Behaviour of the chunk splitter -/

theorem splitGoNoDelim : ∀ (lines : List (List Char)) (f : Option (List Char))
    (chunk : List (List Char)),
    (∀ l ∈ lines, pyDelim (trimL l) = false) →
    splitGo f chunk lines =
      if (chunk ++ lines.map trimL).isEmpty then []
      else [(f, chunk ++ lines.map trimL)] := by
  intro lines
  induction lines with
  | nil => intro f chunk _; simp [splitGo]
  | cons l rest ih =>
      intro f chunk h
      have hl : pyDelim (trimL l) = false := h l (by simp)
      have hstep : splitGo f chunk (l :: rest) = splitGo f (chunk ++ [trimL l]) rest := by
        simp [splitGo, hl]
      rw [hstep, ih f (chunk ++ [trimL l]) (fun x hx => h x (by simp [hx]))]
      have hne1 : (chunk ++ [trimL l] ++ rest.map trimL).isEmpty = false := by
        simp
      have hne2 : (chunk ++ (l :: rest).map trimL).isEmpty = false := by
        simp
      rw [hne1, hne2]
      simp

theorem splitGoDropTrailing : ∀ (lines : List (List Char)) (f : Option (List Char))
    (chunk : List (List Char)) (d : List Char),
    pyDelim (trimL d) = true →
    splitGo f chunk (lines ++ [d]) = splitGo f chunk lines := by
  intro lines
  induction lines with
  | nil =>
      intro f chunk d hd
      simp [splitGo, hd]
  | cons l rest ih =>
      intro f chunk d hd
      simp only [List.cons_append, splitGo, List.append_eq]
      by_cases hl : pyDelim (trimL l) = true
      · simp only [hl, if_true]
        rw [ih _ _ _ hd]
      · simp only [hl, if_false, Bool.false_eq_true]
        rw [ih _ _ _ hd]

theorem splitGoNamedTail : ∀ (lines : List (List Char)) (f : Option (List Char))
    (chunk : List (List Char)) (d : List Char) (post : List (List Char)),
    pyDelim (trimL d) = true →
    (∀ l ∈ post, pyDelim (trimL l) = false) →
    post ≠ [] →
    splitGo f chunk (lines ++ d :: post) =
      splitGo f chunk (lines ++ [d]) ++ [(some (stripDashes (trimL d)), post.map trimL)] := by
  intro lines
  induction lines with
  | nil =>
      intro f chunk d post hd hp hpne
      simp only [List.nil_append, splitGo, hd, if_true]
      rw [splitGoNoDelim post _ [] hp]
      have hne : ([] ++ post.map trimL : List (List Char)).isEmpty = false := by
        cases post with
        | nil => exact absurd rfl hpne
        | cons a t => simp
      rw [hne]
      simp [splitGo]
  | cons l rest ih =>
      intro f chunk d post hd hp hpne
      simp only [List.cons_append, splitGo, List.append_eq]
      by_cases hl : pyDelim (trimL l) = true
      · simp only [hl, if_true]
        rw [ih _ _ _ _ hd hp hpne]
        simp [List.append_assoc]
      · simp only [hl, if_false, Bool.false_eq_true]
        rw [ih _ _ _ _ hd hp hpne]

/-! ### Behaviour of the per-chunk processing loop of the index route -/

theorem pcGoErr : ∀ (pre : List NamedChunk)
    (process : Nat → NamedChunk → Except (List Char) (List Char))
    (i : Nat) (acc : List (List Char)) (c : NamedChunk) (rest : List NamedChunk)
    (e : List Char),
    (∀ k, (hk : k < pre.length) → ∃ v, process (i + k) (pre.get ⟨k, hk⟩) = .ok v) →
    process (i + pre.length) c = .error e →
    pcGo process i (pre ++ c :: rest) acc = .err (errMsg (i + pre.length) e) := by
  intro pre
  induction pre with
  | nil =>
      intro process i acc c rest e _ hc
      simp only [List.length_nil, Nat.add_zero] at hc
      simp only [List.nil_append, pcGo, hc]
      simp
  | cons p pre2 ih =>
      intro process i acc c rest e hpre hc
      obtain ⟨v, hv⟩ := hpre 0 (by simp)
      have hv2 : process i p = .ok v := by simpa using hv
      simp only [List.cons_append, pcGo, hv2, List.append_eq]
      have hshift : ∀ k, (hk : k < pre2.length) →
          ∃ v2, process (i + 1 + k) (pre2.get ⟨k, hk⟩) = .ok v2 := by
        intro k hk
        have := hpre (k + 1) (by simpa using Nat.succ_lt_succ hk)
        rw [show i + (k + 1) = i + 1 + k by omega] at this
        exact this
      have hc2 : process (i + 1 + pre2.length) c = .error e := by
        rw [show i + 1 + pre2.length = i + (p :: pre2).length by simp; omega]
        exact hc
      rw [ih process (i + 1) (acc ++ [v]) c rest e hshift hc2]
      have : i + 1 + pre2.length = i + (p :: pre2).length := by simp; omega
      rw [this]

theorem pcCallsRange : ∀ (pre : List NamedChunk)
    (process : Nat → NamedChunk → Except (List Char) (List Char))
    (i : Nat) (c : NamedChunk) (rest : List NamedChunk) (e : List Char),
    (∀ k, (hk : k < pre.length) → ∃ v, process (i + k) (pre.get ⟨k, hk⟩) = .ok v) →
    process (i + pre.length) c = .error e →
    pcCalls process i (pre ++ c :: rest) = List.range' i (pre.length + 1) := by
  intro pre
  induction pre with
  | nil =>
      intro process i c rest e _ hc
      simp only [List.length_nil, Nat.add_zero] at hc
      simp [pcCalls, hc, List.range']
  | cons p pre2 ih =>
      intro process i c rest e hpre hc
      obtain ⟨v, hv⟩ := hpre 0 (by simp)
      have hv2 : process i p = .ok v := by simpa using hv
      simp only [List.cons_append, pcCalls, hv2, List.append_eq]
      have hshift : ∀ k, (hk : k < pre2.length) →
          ∃ v2, process (i + 1 + k) (pre2.get ⟨k, hk⟩) = .ok v2 := by
        intro k hk
        have := hpre (k + 1) (by simpa using Nat.succ_lt_succ hk)
        rw [show i + (k + 1) = i + 1 + k by omega] at this
        exact this
      have hc2 : process (i + 1 + pre2.length) c = .error e := by
        rw [show i + 1 + pre2.length = i + (p :: pre2).length by simp; omega]
        exact hc
      rw [ih process (i + 1) c rest e hshift hc2]
      simp [List.range']

/-! ### Claim theorems -/

/-- Claim C1, counterexample: on the group with two marked options
`(A) x @` and `(B) y @`, the emitted correct-option index is 1 (the last
marked option), while the first marked option has index 0, so the stated
first-wins tie-break does not hold. -/
theorem claimC1_cex :
    (convert_text_to_word 1 [sl "Q", sl "(A) x @", sl "(B) y @"]).1.map
        (fun q => q.correctIdx) = [some 1] ∧
    List.findIdx? (fun l => l.contains '@') [sl "(A) x @", sl "(B) y @"] = some 0 ∧
    (some 1 : Option Nat) ≠ some 0 := by decide

/-- Claim C1, amended: for every extraction block, the emitted
correct-option index is the index of the LAST option line containing the
marker character, and it is a single optional index, so at most one option
is recorded as correct. -/
theorem claimC1_amended : ∀ (m pos : Nat) (stemSeg : List Char)
    (optLines : List (List Char)),
    (trimL stemSeg).isEmpty = false → optMatch stemSeg = false →
    (∀ l ∈ optLines, (trimL l).isEmpty = false ∧ optMatch l = true) →
    (convertLoop (m + 1) pos (stemSeg :: optLines)).1.map (fun q => q.correctIdx)
      = [lastMarkedIdx (fun ol => ol.contains '@') (optLines.map trimL)] := by
  intro m pos stemSeg optLines h1 h2 h3
  rw [convertLoopBlock m pos stemSeg optLines h1 h2 h3]
  simp

/-- Claim C1, witness: the amended theorem evaluated on a concrete block
with two marked options. -/
theorem claimC1_witness :
    (convertLoop 1 0 [sl "Q", sl "(A) x @", sl "(B) y @"]).1.map (fun q => q.correctIdx)
      = [lastMarkedIdx (fun ol => ol.contains '@')
          ([sl "(A) x @", sl "(B) y @"].map trimL)] :=
  claimC1_amended 0 0 (sl "Q") [sl "(A) x @", sl "(B) y @"]
    (by decide) (by decide) (by decide)

/-- Claim C2: on the input lines of Scenario 1 and any positive table
count, the parser emits exactly one record with stem `What is 2+2?`,
options `3`, `4 @` (marker retained), `5`, and correct-option index 1. -/
theorem claimC2 : ∀ n : Nat, 1 ≤ n →
    (convert_text_to_word n
        [sl "1. What is 2+2?", sl "(A) 3", sl "(B) 4 @", sl "(C) 5"]).1
      = [⟨sl "What is 2+2?", [sl "3", sl "4 @", sl "5"], some 1⟩] := by
  intro n hn
  match n, hn with
  | m + 1, _ =>
      unfold convert_text_to_word
      have hpre : preprocess_mcq_lines
          [sl "1. What is 2+2?", sl "(A) 3", sl "(B) 4 @", sl "(C) 5"]
          = sl "1. What is 2+2?" :: [sl "(A) 3", sl "(B) 4 @", sl "(C) 5"] := by decide
      rw [hpre, convertLoopBlock m 0 _ _ (by decide) (by decide) (by decide)]
      decide

/-- Claim C2, witness: the theorem at exactly one available slot. -/
theorem claimC2_witness :
    (convert_text_to_word 1
        [sl "1. What is 2+2?", sl "(A) 3", sl "(B) 4 @", sl "(C) 5"]).1
      = [⟨sl "What is 2+2?", [sl "3", sl "4 @", sl "5"], some 1⟩] :=
  claimC2 1 (by decide)

/-- Claim C3: the classifier-and-grouper stage equals its declarative
contract on every input: discard lines empty after trimming, classify with
the option grammar, pass option lines through, and merge every maximal run
of consecutive prose lines into one newline-joined segment. -/
theorem claimC3 : ∀ lines, preprocess_mcq_lines lines = specGrouping lines :=
  preprocessEqSpec

/-- Claim C4, counterexample: the option line `A. Paris @` contains a
period delimiter, so the claim predicts option text `Paris @`, but the
emitted option text is the whole line `A. Paris @` because the code splits
only on a closing paren. -/
theorem claimC4_cex :
    (convert_text_to_word 1 [sl "Q?", sl "A. Paris @"]).1.map (fun q => q.opts)
        = [[sl "A. Paris @"]] ∧
    trimL (specOptionText (sl "A. Paris @")) = sl "Paris @" ∧
    sl "A. Paris @" ≠ sl "Paris @" := by decide

/-- Claim C4, amended: the option text is everything after the first
closing paren when one occurs; a closing bracket or period is not a
delimiter; when the line has no closing paren the whole line is kept, and
the split is total, so the parse never fails. -/
theorem claimC4_amended : ∀ s : List Char, pySplit1Last ')' s = specAfterParenText s := by
  intro s
  unfold pySplit1Last specAfterParenText
  rw [pySplitGoLast ')' s []]
  by_cases hm : ')' ∈ s <;> simp [hm]

/-- Claim C5, counterexample: for the two-line stem `1. Who` and
`2. am I`, the emitted stem is `Who` followed by the unstripped second
line `2. am I`, while the per-line strip of the claim would also remove
the `2. ` prefix. -/
theorem claimC5_cex :
    (convert_text_to_word 1 [sl "1. Who", sl "2. am I", sl "(A) x @"]).1.map
        (fun q => q.stem) = [sl "Who\n2. am I"] ∧
    perLineStrip (sl "1. Who\n2. am I") = sl "Who\nam I" ∧
    sl "Who\n2. am I" ≠ sl "Who\nam I" := by decide

/-- Claim C5, amended: the question-number strip is applied exactly once
per grouped prose segment — the emitted stem is the stripped-once whole
merged block, so only its first line loses a numbering prefix. -/
theorem claimC5_amended : ∀ (m pos : Nat) (stemSeg : List Char)
    (optLines : List (List Char)),
    (trimL stemSeg).isEmpty = false → optMatch stemSeg = false →
    (∀ l ∈ optLines, (trimL l).isEmpty = false ∧ optMatch l = true) →
    (convertLoop (m + 1) pos (stemSeg :: optLines)).1.map (fun q => q.stem)
      = [trimL (stripNum (trimL stemSeg))] := by
  intro m pos stemSeg optLines h1 h2 h3
  rw [convertLoopBlock m pos stemSeg optLines h1 h2 h3]
  simp

/-- Claim C5, witness: the amended theorem on a concrete two-line stem. -/
theorem claimC5_witness :
    (convertLoop 1 0 [sl "1. a\n2. b", sl "(A) c"]).1.map (fun q => q.stem)
      = [trimL (stripNum (trimL (sl "1. a\n2. b")))] :=
  claimC5_amended 0 0 (sl "1. a\n2. b") [sl "(A) c"]
    (by decide) (by decide) (by decide)

/-- Claim C6, counterexample: for a two-line stem followed by an unmarked
option group, the recorded unresolved index is 1 — the post-grouping
position of the first option line — not 0, the starting line index of the
block (pre-grouping the options even start at raw index 2).  For a block
with no option lines at all the recorded index 1 even lies past the end of
the one-element grouped sequence. -/
theorem claimC6_cex :
    (convert_text_to_word 1 [sl "intro one", sl "intro two", sl "(A) x", sl "(B) y"]).2
        = [1] ∧
    (convert_text_to_word 1 [sl "intro one", sl "intro two", sl "(A) x", sl "(B) y"]).2
        ≠ [0] ∧
    (convert_text_to_word 1 [sl "just a question"]).2 = [1] := by decide

/-- Claim C6, amended: a block whose option group has no marker still
emits a record with no correct index, and the recorded unresolved index is
the position, in the post-grouping line sequence, just after the stem
segment (the first option line when options exist). -/
theorem claimC6_amended : ∀ (m pos : Nat) (stemSeg : List Char)
    (optLines : List (List Char)),
    (trimL stemSeg).isEmpty = false → optMatch stemSeg = false →
    (∀ l ∈ optLines, (trimL l).isEmpty = false ∧ optMatch l = true) →
    (∀ l ∈ optLines, (trimL l).contains '@' = false) →
    convertLoop (m + 1) pos (stemSeg :: optLines) =
      ([⟨trimL (stripNum (trimL stemSeg)),
         optLines.map (fun l => trimL (pySplit1Last ')' (trimL l))), none⟩],
       [pos + 1]) := by
  intro m pos stemSeg optLines h1 h2 h3 h4
  rw [convertLoopBlock m pos stemSeg optLines h1 h2 h3]
  have hnone : lastMarkedIdx (fun ol => ol.contains '@') (optLines.map trimL) = none := by
    apply lastMarkedIdxNone
    intro x hx
    rcases List.mem_map.mp hx with ⟨l, hl, rfl⟩
    exact h4 l hl
  rw [hnone]

/-- Claim C6, witness: the amended theorem on a concrete unmarked block
starting at position 5. -/
theorem claimC6_witness :
    convertLoop 1 5 [sl "stem line", sl "(A) x", sl "(B) y"] =
      ([⟨trimL (stripNum (trimL (sl "stem line"))),
         [sl "(A) x", sl "(B) y"].map (fun l => trimL (pySplit1Last ')' (trimL l))), none⟩],
       [5 + 1]) :=
  claimC6_amended 0 5 (sl "stem line") [sl "(A) x", sl "(B) y"]
    (by decide) (by decide) (by decide) (by decide)

/-- Claim C7, counterexample: the line `---` does not match the delimiter
regular expression of the claim, which needs at least six characters, yet
the splitter treats it as a delimiter: it closes the chunk holding `a` and
opens a chunk named by the empty string, instead of producing the single
unnamed chunk the claim predicts. -/
theorem claimC7_cex :
    split_text_by_pattern [sl "a", sl "---", sl "b"]
        = [(none, [sl "a"]), (some [], [sl "b"])] ∧
    dashDelimRegex (sl "---") = false ∧
    split_text_by_pattern [sl "a", sl "---", sl "b"]
        ≠ [(none, [sl "a", sl "---", sl "b"])] := by decide

/-- Claim C7, amended: the delimiters are exactly the lines whose trimmed
form starts and ends with three dashes — including a bare `---`, which the
regular expression rejects; the name is the trimmed delimiter stripped of
all leading and trailing dashes; a delimiter closes the previous chunk
only if it has content; content before the first delimiter has no name;
the final chunk is flushed at end of input (and a trailing delimiter
contributes nothing). -/
theorem claimC7_amended :
    (∀ lines, (∀ l ∈ lines, pyDelim (trimL l) = false) → lines ≠ [] →
        split_text_by_pattern lines = [(none, lines.map trimL)]) ∧
    (∀ lines (d : List Char), pyDelim (trimL d) = true →
        split_text_by_pattern (lines ++ [d]) = split_text_by_pattern lines) ∧
    (∀ lines (d : List Char) (post : List (List Char)),
        pyDelim (trimL d) = true → (∀ l ∈ post, pyDelim (trimL l) = false) →
        post ≠ [] →
        split_text_by_pattern (lines ++ d :: post) =
          split_text_by_pattern (lines ++ [d])
            ++ [(some (stripDashes (trimL d)), post.map trimL)]) := by
  refine ⟨?a, ?b, ?c⟩
  · intro lines h hne
    unfold split_text_by_pattern
    rw [splitGoNoDelim lines none [] h]
    cases lines with
    | nil => exact absurd rfl hne
    | cons a t => simp
  · intro lines d hd
    unfold split_text_by_pattern
    exact splitGoDropTrailing lines none [] d hd
  · intro lines d post hd hp hpne
    unfold split_text_by_pattern
    exact splitGoNamedTail lines none [] d post hd hp hpne

/-- Claim C7, witness: the amended theorem evaluated on concrete inputs —
a delimiter-free line, a trailing delimiter, and a named tail chunk. -/
theorem claimC7_witness :
    split_text_by_pattern [sl " x "] = [(none, [sl " x "].map trimL)] ∧
    split_text_by_pattern ([sl "a"] ++ [sl "---end---"]) = split_text_by_pattern [sl "a"] ∧
    split_text_by_pattern ([sl "a"] ++ sl "---n---" :: [sl "b"]) =
      split_text_by_pattern ([sl "a"] ++ [sl "---n---"])
        ++ [(some (stripDashes (trimL (sl "---n---"))), [sl "b"].map trimL)] :=
  ⟨claimC7_amended.1 [sl " x "] (by decide) (by decide),
   claimC7_amended.2.1 [sl "a"] (sl "---end---") (by decide),
   claimC7_amended.2.2 [sl "a"] (sl "---n---") [sl "b"] (by decide) (by decide) (by decide)⟩

/-- Claim C8, counterexample: with two chunks where processing the first
fails and processing the second would succeed, the loop invokes the body
only at index 0 and returns the error page — the sibling chunk is neither
processed nor reported. -/
theorem claimC8_cex :
    pcCalls (fun k _ => if k = 0 then Except.error (sl "bad") else Except.ok (sl "f2")) 0
        [(none, [sl "q"]), (some (sl "d2"), [sl "r"])] = [0] ∧
    (fun (k : Nat) (_ : NamedChunk) =>
        if k = 0 then Except.error (sl "bad") else Except.ok (sl "f2")) 1
        (some (sl "d2"), [sl "r"])
      = Except.ok (sl "f2") ∧
    processChunks (fun k _ => if k = 0 then Except.error (sl "bad") else Except.ok (sl "f2"))
        [(none, [sl "q"]), (some (sl "d2"), [sl "r"])] = .err (errMsg 0 (sl "bad")) :=
  ⟨rfl, rfl, rfl⟩

/-- Claim C8, amended: when the chunks before position `pre.length` all
process successfully and the chunk at that position fails, the route
returns at once with the chunk-scoped error message for the failing chunk;
the loop body is invoked exactly on the indices up to and including the
failing one, so the chunks after the failure are never processed. -/
theorem claimC8_amended : ∀ (process : Nat → NamedChunk → Except (List Char) (List Char))
    (pre : List NamedChunk) (c : NamedChunk) (rest : List NamedChunk) (e : List Char),
    (∀ k, (hk : k < pre.length) → ∃ v, process k (pre.get ⟨k, hk⟩) = .ok v) →
    process pre.length c = .error e →
    processChunks process (pre ++ c :: rest) = .err (errMsg pre.length e) ∧
    pcCalls process 0 (pre ++ c :: rest) = List.range (pre.length + 1) := by
  intro process pre c rest e hpre hc
  have hpre0 : ∀ k, (hk : k < pre.length) →
      ∃ v, process (0 + k) (pre.get ⟨k, hk⟩) = .ok v := by
    intro k hk
    simpa using hpre k hk
  have hc0 : process (0 + pre.length) c = .error e := by simpa using hc
  constructor
  · unfold processChunks
    rw [pcGoErr pre process 0 [] c rest e hpre0 hc0]
    simp
  · rw [pcCallsRange pre process 0 c rest e hpre0 hc0, List.range_eq_range']

/-- Claim C8, witness: the amended theorem on one successful chunk
followed by one failing chunk. -/
theorem claimC8_witness :
    processChunks (fun k _ => if k = 0 then Except.ok (sl "f1") else Except.error (sl "boom"))
        [(none, [sl "q"]), (some (sl "d2"), [sl "r"])] = .err (errMsg 1 (sl "boom")) ∧
    pcCalls (fun k _ => if k = 0 then Except.ok (sl "f1") else Except.error (sl "boom")) 0
        [(none, [sl "q"]), (some (sl "d2"), [sl "r"])] = List.range 2 :=
  claimC8_amended
    (fun k _ => if k = 0 then Except.ok (sl "f1") else Except.error (sl "boom"))
    [(none, [sl "q"])] (some (sl "d2"), [sl "r"]) [] (sl "boom")
    (fun k hk => by
      have hk0 : k = 0 := by
        simp at hk
        omega
      subst hk0
      exact ⟨sl "f1", rfl⟩)
    rfl

/-- Claim C9, counterexample: the emitted record for the stem line
`1. 2. What` has stem `2. What`, and applying the question-number
stripper to that emitted stem changes it to `What`, so the stripper is
not idempotent on emitted stems. -/
theorem claimC9_cex :
    (convert_text_to_word 1 [sl "1. 2. What", sl "(A) x @"]).1.map (fun q => q.stem)
        = [sl "2. What"] ∧
    stripNum (sl "2. What") ≠ sl "2. What" := by decide

/-- Claim C9, amended: the stripper leaves a text unchanged exactly when
the numbering pattern does not match at its start; since emitted stems can
still begin with a numbering decoration, re-applying the stripper is not a
no-op in general, but it is on every stem with no leading match. -/
theorem claimC9_amended : ∀ t : List Char, stripNum t = t ↔ numMatchRest t = none := by
  intro t
  constructor
  · intro h
    cases hm : numMatchRest t with
    | none => rfl
    | some r =>
        have hlt := numMatchRestLt hm
        have hr : stripNum t = r := by simp [stripNum, hm]
        rw [h] at hr
        rw [← hr] at hlt
        omega
  · intro h
    simp [stripNum, h]

/-- Claim C10: the extraction terminates on every input — every element
produced by the grouping stage is a non-empty string, and one iteration of
the outer extraction loop on a non-empty line sequence always strictly
shortens the remaining sequence (the table count also decreases by one
each iteration by construction of `convertLoop`). -/
theorem claimC10 :
    (∀ lines s, s ∈ preprocess_mcq_lines lines → s ≠ []) ∧
    (∀ (l : List Char) (rest : List (List Char)),
      (restOf (l :: rest)).length < (l :: rest).length) :=
  ⟨preprocessElemsNeNil, restOfProgress⟩
